import Mathlib

/-!
Verification of `scripts/populate-known-masters.py`: a shallow embedding of
the known-masters merger and proofs of its specified properties.

The Python program builds a set of `Master` values (deduplicated by name),
merges in CLI-supplied names, warns on duplicates, loads a JSON document,
replaces its `KnownMasters` key with the sorted list, and writes it back.
We model strings as Lean `String`, the deduplicating set as a list kept free
of name repetitions (insertion order), the JSON document as an explicit
value type, and the file system interaction as an input `ReadResult` and an
output `Except`.
-/

namespace PopulateKnownMasters

/-- Embeds `class MasterType(str, enum.Enum)` with members FULL/MEDIUM/SMALL. -/
inductive MasterType where
  | FULL
  | MEDIUM
  | SMALL
deriving DecidableEq, Repr

/-- The string value of a `MasterType` member (`"Full"`, `"Medium"`, `"Small"`),
which is both its JSON serialization and the string the `type` sort key
lowercases. -/
def MasterType.toStyle : MasterType → String
  | .FULL => "Full"
  | .MEDIUM => "Medium"
  | .SMALL => "Small"

/-- Embeds `class Master(dict)`: a named master file with a size type.
Equality and hashing in the Python class are by `name` alone; here the
name-keyed identity is expressed directly in the set operations below. -/
structure Master where
  name : String
  type : MasterType
deriving DecidableEq, Repr

/-- Python code-point comparison of characters, `a < b` on `str` elements. -/
def charLt (a b : Char) : Bool := a.toNat < b.toNat

/-- Python lexicographic `<=` on strings as lists of code points: the
relation under which `list.sort` places keys in ascending order. -/
def strLe : List Char → List Char → Bool
  | [], _ => true
  | _ :: _, [] => false
  | a :: as, b :: bs =>
      if charLt a b then true
      else if charLt b a then false
      else strLe as bs

/-- Embeds Python `str.lower()` (per-character lowercasing), returning the
code-point list used for comparisons. -/
def lowerStr (s : String) : List Char := s.data.map Char.toLower

/-- Sort comparison for `--sort-by name`: ascending by `master.name.lower()`. -/
def nameLe (a b : Master) : Bool := strLe (lowerStr a.name) (lowerStr b.name)

/-- Sort comparison for `--sort-by type`: ascending by the Python tuple key
`(master.type.lower(), master.name.lower())`, lexicographically. -/
def typeLe (a b : Master) : Bool :=
  if strLe (lowerStr a.type.toStyle) (lowerStr b.type.toStyle) then
    if strLe (lowerStr b.type.toStyle) (lowerStr a.type.toStyle) then
      strLe (lowerStr a.name) (lowerStr b.name)
    else true
  else false

/-- The built-in set initializer of `main` (lines 50–66): base game, patches,
pre-release content and DLC, in source order. -/
def builtinMasters : List Master :=
  [ ⟨"Starfield.esm", .FULL⟩
  , ⟨"SFBGS003.esm", .MEDIUM⟩
  , ⟨"SFBGS004.esm", .SMALL⟩
  , ⟨"SFBGS006.esm", .MEDIUM⟩
  , ⟨"SFBGS007.esm", .SMALL⟩
  , ⟨"SFBGS008.esm", .SMALL⟩
  , ⟨"BlueprintShips-Starfield.esm", .FULL⟩
  , ⟨"Constellation.esm", .SMALL⟩
  , ⟨"OldMars.esm", .SMALL⟩
  , ⟨"ShatteredSpace.esm", .FULL⟩
  ]

/-- Membership test of the Python set: `Master.__eq__` compares names only,
so a candidate is "already present" exactly when some element has its name. -/
def hasName (s : List Master) (n : String) : Bool := s.any (fun m => m.name = n)

/-- The duplicate-warning line printed by `main` (line 77). -/
def dupWarning (master_file : String) : String :=
  "[WARNING] Duplicate master: " ++ master_file

/-- One iteration of the inner loop of `main` (lines 73–77): `set.add` is a
no-op when an equal (same-name) element is present, and the size comparison
then triggers exactly one warning line. State is (set contents, warnings so
far). -/
def addMaster (st : List Master × List String) (master_file : String)
    (t : MasterType) : List Master × List String :=
  if hasName st.1 master_file then (st.1, st.2 ++ [dupWarning master_file])
  else (st.1 ++ [⟨master_file, t⟩], st.2)

/-- The inner loop of `main` over one CLI list. -/
def addMasterList (st : List Master × List String) (files : List String)
    (t : MasterType) : List Master × List String :=
  files.foldl (fun st f => addMaster st f t) st

/-- The full merge phase of `main` (lines 50–77): start from the built-ins,
then fold the three CLI lists in the fixed order full, medium, small.
Returns the final set contents and the warning lines printed. -/
def computeKnownMasters (full_masters medium_masters small_masters : List String) :
    List Master × List String :=
  addMasterList
    (addMasterList
      (addMasterList (builtinMasters, []) full_masters .FULL)
      medium_masters .MEDIUM)
    small_masters .SMALL

/-- The sort phase of `main` (lines 86–90): Python `list.sort` is a stable
sort, and a stable sort's output is uniquely determined by the comparison
and the input order, so we embed it as the (also stable) insertion sort.
`match sort_by` has no wildcard case, so any other selector leaves the list
unsorted. -/
def sortMasters (sort_by : String) (l : List Master) : List Master :=
  if sort_by = "name" then List.insertionSort (fun a b => nameLe a b = true) l
  else if sort_by = "type" then List.insertionSort (fun a b => typeLe a b = true) l
  else l

/-- The master list assigned to `KnownMasters` when the comprehension
`[master for master in known_masters]` of line 85 happens to list the set
in insertion order. CPython's set iteration order is hash-randomized per
process, so in general line 85 yields an arbitrary permutation of the set's
contents (`iterOrderOf` below captures the full range); insertion order is
one possible outcome, and the stable sort makes the choice observable only
in the relative order of entries whose sort keys tie. -/
def writtenMasters (full_masters medium_masters small_masters : List String)
    (sort_by : String) : List Master :=
  sortMasters sort_by (computeKnownMasters full_masters medium_masters small_masters).1

/-- The nondeterminism of line 85: a list is a possible listing of the
run's set (the hash-table iteration order of some process) exactly when it
is a permutation of the set's contents. -/
def iterOrderOf (full_masters medium_masters small_masters : List String)
    (iter : List Master) : Prop :=
  iter.Perm (computeKnownMasters full_masters medium_masters small_masters).1

/-- JSON values, as produced by `json.load` and consumed by `json.dump`.
Objects are insertion-ordered key/value lists, as Python dicts are. -/
inductive JValue where
  | obj (fields : List (String × JValue))
  | arr (items : List JValue)
  | str (s : String)
  | num (n : Int)
  | jbool (b : Bool)
  | null

/-- Serialization of a `Master`: it subclasses `dict` with keys `ModKey`
(the name) and `Style` (the type's string value), so `json.dump` emits that
object. -/
def Master.toJson (m : Master) : JValue :=
  .obj [("ModKey", .str m.name), ("Style", .str m.type.toStyle)]

/-- Python dict item assignment `d[k] = v`: replace in place if the key is
present, else append at the end (dicts preserve insertion order). -/
def dictSet (fields : List (String × JValue)) (k : String) (v : JValue) :
    List (String × JValue) :=
  if fields.any (fun p => p.1 = k) then
    fields.map (fun p => if p.1 = k then (k, v) else p)
  else fields ++ [(k, v)]

/-- Python dict lookup `d.get(k)` on the embedded object fields. -/
def jget (fields : List (String × JValue)) (k : String) : Option JValue :=
  (fields.find? (fun p => p.1 = k)).map (fun p => p.2)

/-- Lookup on a whole document: `none` when it is not an object. -/
def jgetDoc : JValue → String → Option JValue
  | .obj fields, k => jget fields k
  | _, _ => none

/-- Outcome of `json.load(open(spriggit_file, "r"))`: the parsed value, a
`FileNotFoundError`, or any other read/parse failure. -/
inductive ReadResult where
  | ok (j : JValue)
  | notFound
  | otherError

/-- How a run can abort after the merge phase: an unhandled read/parse
failure (line 81, only `FileNotFoundError` is caught), or the unhandled
`TypeError` at line 85 when the parsed document is not an object. -/
inductive RunError where
  | readError
  | notAnObject
deriving DecidableEq, Repr

/-- The read step of `main` (lines 80–83): `FileNotFoundError` is recovered
as the empty document `{}`; any other failure propagates. -/
def loadDoc : ReadResult → Except RunError JValue
  | .ok j => .ok j
  | .notFound => .ok (.obj [])
  | .otherError => .error .readError

/-- Embeds `main` (lines 47–95): merge, read, assign `KnownMasters`, sort,
write. Returns the warning lines together with either the document passed
to `json.dump` or the error on which the process aborts. The warnings are
printed before the read, so they appear on every path. -/
def runMain (full_masters medium_masters small_masters : List String)
    (sort_by : String) (file : ReadResult) :
    List String × Except RunError JValue :=
  let merged := computeKnownMasters full_masters medium_masters small_masters
  match loadDoc file with
  | .error e => (merged.2, .error e)
  | .ok (.obj fields) =>
      (merged.2, .ok (.obj (dictSet fields "KnownMasters"
        (.arr ((writtenMasters full_masters medium_masters small_masters sort_by).map
          Master.toJson)))))
  | .ok _ => (merged.2, .error .notAnObject)

/-- The on-disk state after a run: the written document on success, the
unchanged prior state when the run aborts before the write at line 92. -/
def diskAfter (full_masters medium_masters small_masters : List String)
    (sort_by : String) (file : ReadResult) : ReadResult :=
  match (runMain full_masters medium_masters small_masters sort_by file).2 with
  | .ok j => .ok j
  | .error _ => file

/-- The document passed to `json.dump`, when the run reaches the write step. -/
def writtenDoc? (full_masters medium_masters small_masters : List String)
    (sort_by : String) (file : ReadResult) : Option JValue :=
  match (runMain full_masters medium_masters small_masters sort_by file).2 with
  | .ok j => some j
  | .error _ => none

/-! ## Order-theoretic facts about the embedded string comparisons -/

theorem strLe_refl (a : List Char) : strLe a a = true := by
  induction a with
  | nil => rfl
  | cons x xs ih => simp [strLe, charLt, ih]

theorem strLe_total (a b : List Char) : strLe a b = true ∨ strLe b a = true := by
  induction a generalizing b with
  | nil => exact .inl rfl
  | cons x xs ih =>
    cases b with
    | nil => exact .inr rfl
    | cons y ys =>
      by_cases hxy : charLt x y
      · left
        simp [strLe, hxy]
      · by_cases hyx : charLt y x
        · right
          simp [strLe, hyx]
        · rcases ih ys with h | h <;> [left; right] <;>
            simpa [strLe, hxy, hyx] using h

theorem charLt_trans {a b c : Char} (h₁ : charLt a b = true) (h₂ : charLt b c = true) :
    charLt a c = true := by
  simp only [charLt, decide_eq_true_eq] at *
  exact lt_trans h₁ h₂

theorem char_eq_of_not_lt {a b : Char} (h₁ : charLt a b = false) (h₂ : charLt b a = false) :
    a = b := by
  simp only [charLt, decide_eq_false_iff_not, not_lt] at h₁ h₂
  exact Char.eq_of_val_eq (UInt32.toNat.inj (le_antisymm h₂ h₁))

theorem strLe_trans : ∀ {a b c : List Char},
    strLe a b = true → strLe b c = true → strLe a c = true
  | [], _, _, _, _ => rfl
  | _ :: _, [], _, h, _ => by simp [strLe] at h
  | _ :: _, _ :: _, [], _, h => by simp [strLe] at h
  | a :: as, b :: bs, c :: cs, h₁, h₂ => by
    cases hab : charLt a b with
    | true =>
      cases hbc : charLt b c with
      | true => simp [strLe, charLt_trans hab hbc]
      | false =>
        cases hcb : charLt c b with
        | true => simp [strLe, hbc, hcb] at h₂
        | false =>
          cases char_eq_of_not_lt hbc hcb
          simp [strLe, hab]
    | false =>
      cases hba : charLt b a with
      | true => simp [strLe, hab, hba] at h₁
      | false =>
        cases char_eq_of_not_lt hab hba
        cases hac : charLt a c with
        | true => simp [strLe, hac]
        | false =>
          cases hca : charLt c a with
          | true => simp [strLe, hac, hca] at h₂
          | false =>
            cases char_eq_of_not_lt hac hca
            simp only [strLe, hab, hac, if_false, Bool.false_eq_true] at h₁ h₂ ⊢
            exact strLe_trans h₁ h₂

theorem strLe_antisymm : ∀ {a b : List Char},
    strLe a b = true → strLe b a = true → a = b
  | [], [], _, _ => rfl
  | [], _ :: _, _, h => by simp [strLe] at h
  | _ :: _, [], h, _ => by simp [strLe] at h
  | a :: as, b :: bs, h₁, h₂ => by
    cases hab : charLt a b with
    | true =>
      cases hba : charLt b a with
      | true => exact absurd (charLt_trans hab hba) (by simp [charLt])
      | false => simp [strLe, hab, hba] at h₂
    | false =>
      cases hba : charLt b a with
      | true => simp [strLe, hab, hba] at h₁
      | false =>
        cases char_eq_of_not_lt hab hba
        simp only [strLe, hab, if_false, Bool.false_eq_true] at h₁ h₂
        rw [strLe_antisymm h₁ h₂]

theorem nameLe_total (a b : Master) : nameLe a b = true ∨ nameLe b a = true :=
  strLe_total (lowerStr a.name) (lowerStr b.name)

theorem nameLe_trans (a b c : Master) (h₁ : nameLe a b = true) (h₂ : nameLe b c = true) :
    nameLe a c = true :=
  strLe_trans h₁ h₂

theorem typeLe_total (a b : Master) : typeLe a b = true ∨ typeLe b a = true := by
  unfold typeLe
  cases hab : strLe (lowerStr a.type.toStyle) (lowerStr b.type.toStyle) with
  | true =>
    cases hba : strLe (lowerStr b.type.toStyle) (lowerStr a.type.toStyle) with
    | true => simpa [hab, hba] using strLe_total (lowerStr a.name) (lowerStr b.name)
    | false => left; simp [hab, hba]
  | false =>
    cases hba : strLe (lowerStr b.type.toStyle) (lowerStr a.type.toStyle) with
    | true => right; simp [hab, hba]
    | false =>
      rcases strLe_total (lowerStr a.type.toStyle) (lowerStr b.type.toStyle) with h | h
      · simp [h] at hab
      · simp [h] at hba

theorem typeLe_trans (a b c : Master) (h₁ : typeLe a b = true) (h₂ : typeLe b c = true) :
    typeLe a c = true := by
  unfold typeLe at *
  cases hab : strLe (lowerStr a.type.toStyle) (lowerStr b.type.toStyle) with
  | false => simp [hab] at h₁
  | true =>
    cases hbc : strLe (lowerStr b.type.toStyle) (lowerStr c.type.toStyle) with
    | false => simp [hbc] at h₂
    | true =>
      have hac : strLe (lowerStr a.type.toStyle) (lowerStr c.type.toStyle) = true :=
        strLe_trans hab hbc
      rw [if_pos hac]
      cases hca : strLe (lowerStr c.type.toStyle) (lowerStr a.type.toStyle) with
      | false => simp
      | true =>
        have hba : strLe (lowerStr b.type.toStyle) (lowerStr a.type.toStyle) = true :=
          strLe_trans hbc hca
        have hcb : strLe (lowerStr c.type.toStyle) (lowerStr b.type.toStyle) = true :=
          strLe_trans hca hab
        rw [hab, hba] at h₁
        rw [hbc, hcb] at h₂
        simp only [if_true, if_pos rfl] at h₁ h₂
        simpa using strLe_trans (by simpa using h₁) (by simpa using h₂)

/-- `typeLe` is exactly the lexicographic order on the Python sort key tuple
`(type.lower(), name.lower())`. -/
theorem typeLe_iff (a b : Master) : typeLe a b = true ↔
    ((lowerStr a.type.toStyle = lowerStr b.type.toStyle
        ∧ strLe (lowerStr a.name) (lowerStr b.name) = true)
      ∨ (lowerStr a.type.toStyle ≠ lowerStr b.type.toStyle
        ∧ strLe (lowerStr a.type.toStyle) (lowerStr b.type.toStyle) = true)) := by
  unfold typeLe
  cases hab : strLe (lowerStr a.type.toStyle) (lowerStr b.type.toStyle) with
  | false =>
    simp only [if_false, Bool.false_eq_true, false_iff]
    rintro (⟨he, -⟩ | ⟨-, hle⟩)
    · rw [he] at hab
      exact absurd (strLe_refl (lowerStr b.type.toStyle)) (by simp [hab])
    · exact hle
  | true =>
    cases hba : strLe (lowerStr b.type.toStyle) (lowerStr a.type.toStyle) with
    | true =>
      have he : lowerStr a.type.toStyle = lowerStr b.type.toStyle := strLe_antisymm hab hba
      simp [hab, hba, he]
    | false =>
      have hne : lowerStr a.type.toStyle ≠ lowerStr b.type.toStyle := by
        intro he
        rw [he] at hba
        exact absurd (strLe_refl (lowerStr b.type.toStyle)) (by simp [hba])
      simp [hab, hba, hne]

/-! ## Name uniqueness through the merge phase -/

theorem names_nodup_addMaster (st : List Master × List String) (f : String)
    (t : MasterType) (h : (st.1.map Master.name).Nodup) :
    ((addMaster st f t).1.map Master.name).Nodup := by
  unfold addMaster
  cases hf : hasName st.1 f with
  | true => simpa using h
  | false =>
    have hnot : ∀ m ∈ st.1, ¬ m.name = f := by
      simpa [hasName, List.any_eq_false] using hf
    have hnotin : f ∉ st.1.map Master.name := by
      intro hmem
      obtain ⟨m, hm, hname⟩ := List.mem_map.mp hmem
      exact hnot m hm hname
    simp only [Bool.false_eq_true, if_false, List.map_append, List.map_cons, List.map_nil]
    rw [List.nodup_append]
    refine ⟨h, List.nodup_singleton f, ?_⟩
    intro a ha hb
    rw [List.mem_singleton] at hb
    exact hnotin (hb ▸ ha)

theorem names_nodup_addMasterList (files : List String) (t : MasterType) :
    ∀ st : List Master × List String, (st.1.map Master.name).Nodup →
      ((addMasterList st files t).1.map Master.name).Nodup := by
  induction files with
  | nil => exact fun st h => h
  | cons f fs ih =>
    intro st h
    exact ih (addMaster st f t) (names_nodup_addMaster st f t h)

theorem names_nodup_computeKnownMasters (full medium small : List String) :
    ((computeKnownMasters full medium small).1.map Master.name).Nodup :=
  names_nodup_addMasterList small .SMALL _
    (names_nodup_addMasterList medium .MEDIUM _
      (names_nodup_addMasterList full .FULL _ (by decide)))

theorem sortMasters_perm (sort_by : String) (l : List Master) :
    (sortMasters sort_by l).Perm l := by
  unfold sortMasters
  split
  · exact List.perm_insertionSort _ l
  · split
    · exact List.perm_insertionSort _ l
    · exact List.Perm.refl l

theorem names_nodup_writtenMasters (full medium small : List String) (sort_by : String) :
    ((writtenMasters full medium small sort_by).map Master.name).Nodup := by
  have hperm := (sortMasters_perm sort_by (computeKnownMasters full medium small).1).map
    Master.name
  exact hperm.nodup_iff.mpr (names_nodup_computeKnownMasters full medium small)

/-! ## Facts about the embedded dict operations -/

theorem jget_map_replace (k : String) (v : JValue) :
    ∀ fields : List (String × JValue), fields.any (fun p => p.1 = k) = true →
      jget (fields.map (fun p => if p.1 = k then (k, v) else p)) k = some v := by
  intro fields
  induction fields with
  | nil => intro h; simp at h
  | cons p ps ih =>
    intro h
    by_cases hp : p.1 = k
    · rw [List.map_cons, if_pos hp]
      unfold jget
      rw [List.find?_cons_of_pos _ (by simp)]
      rfl
    · have h' : ps.any (fun p => p.1 = k) = true := by simpa [hp] using h
      rw [List.map_cons, if_neg hp]
      unfold jget at ih ⊢
      rw [List.find?_cons_of_neg _ (by simpa using hp)]
      exact ih h'

theorem jget_append_single (k : String) (v : JValue) :
    ∀ fields : List (String × JValue), (∀ p ∈ fields, ¬ p.1 = k) →
      jget (fields ++ [(k, v)]) k = some v := by
  intro fields
  induction fields with
  | nil =>
    intro _
    unfold jget
    rw [List.nil_append, List.find?_cons_of_pos _ (by simp)]
    rfl
  | cons p ps ih =>
    intro h
    unfold jget at ih ⊢
    rw [List.cons_append, List.find?_cons_of_neg _ (by simpa using h p (by simp))]
    exact ih (fun q hq => h q (by simp [hq]))

theorem jget_dictSet_self (fields : List (String × JValue)) (k : String) (v : JValue) :
    jget (dictSet fields k v) k = some v := by
  unfold dictSet
  cases hany : fields.any (fun p => p.1 = k) with
  | true =>
    rw [if_pos rfl]
    exact jget_map_replace k v fields hany
  | false =>
    rw [if_neg (by simp)]
    exact jget_append_single k v fields (by simpa [List.any_eq_false] using hany)

theorem jget_map_replace_ne (k k' : String) (v : JValue) (hne : k' ≠ k) :
    ∀ fields : List (String × JValue),
      jget (fields.map (fun p => if p.1 = k then (k, v) else p)) k' = jget fields k' := by
  intro fields
  induction fields with
  | nil => rfl
  | cons p ps ih =>
    by_cases hp : p.1 = k
    · have hp' : ¬ p.1 = k' := by
        rw [hp]
        exact fun h => hne h.symm
      rw [List.map_cons, if_pos hp]
      unfold jget at ih ⊢
      rw [List.find?_cons_of_neg _ (by simpa using fun h : k = k' => hne h.symm),
        List.find?_cons_of_neg _ (by simpa using hp')]
      exact ih
    · rw [List.map_cons, if_neg hp]
      by_cases hp' : p.1 = k'
      · unfold jget
        rw [List.find?_cons_of_pos _ (by simpa using hp'),
          List.find?_cons_of_pos _ (by simpa using hp')]
      · unfold jget at ih ⊢
        rw [List.find?_cons_of_neg _ (by simpa using hp'),
          List.find?_cons_of_neg _ (by simpa using hp')]
        exact ih

theorem jget_dictSet_ne (fields : List (String × JValue)) (k k' : String) (v : JValue)
    (hne : k' ≠ k) : jget (dictSet fields k v) k' = jget fields k' := by
  unfold dictSet
  cases hany : fields.any (fun p => p.1 = k) with
  | true =>
    rw [if_pos rfl]
    exact jget_map_replace_ne k k' v hne fields
  | false =>
    rw [if_neg (by simp)]
    unfold jget
    rw [List.find?_append]
    have : List.find? (fun p => p.1 = k') [(k, v)] = none := by
      rw [List.find?_eq_none]
      intro x hx
      rw [List.mem_singleton] at hx
      subst hx
      simpa using fun h : k = k' => hne h.symm
    rw [this, Option.or_none]

/-- Overwriting a key with the value it already has is the identity, once the
key is present: the core of the idempotence argument. -/
theorem dictSet_dictSet_self (fields : List (String × JValue)) (k : String) (v : JValue) :
    dictSet (dictSet fields k v) k v = dictSet fields k v := by
  have hmem : (dictSet fields k v).any (fun p => p.1 = k) = true := by
    unfold dictSet
    cases hany : fields.any (fun p => p.1 = k) with
    | true =>
      rw [if_pos rfl, List.any_eq_true] at *
      obtain ⟨p, hp, hpk⟩ := hany
      refine ⟨(k, v), List.mem_map.mpr ⟨p, hp, ?_⟩, by simp⟩
      rw [if_pos (by simpa using hpk)]
    | false =>
      rw [if_neg (by simp), List.any_eq_true]
      exact ⟨(k, v), by simp, by simp⟩
  conv_lhs => rw [dictSet, if_pos hmem]
  have : ∀ l : List (String × JValue), (∀ p ∈ l, p.1 = k → p = (k, v)) →
      l.map (fun p => if p.1 = k then (k, v) else p) = l := by
    intro l
    induction l with
    | nil => intro _; rfl
    | cons p ps ih =>
      intro h
      rw [List.map_cons, ih (fun q hq => h q (by simp [hq]))]
      by_cases hp : p.1 = k
      · rw [if_pos hp, h p (by simp) hp]
      · rw [if_neg hp]
  apply this
  intro p hp hpk
  unfold dictSet at hp
  cases hany : fields.any (fun q => q.1 = k) with
  | true =>
    rw [if_pos hany] at hp
    obtain ⟨q, _, hq⟩ := List.mem_map.mp hp
    by_cases hqk : q.1 = k
    · rw [if_pos hqk] at hq
      exact hq.symm
    · rw [if_neg hqk] at hq
      exact absurd (hq ▸ hpk) hqk
  | false =>
    rw [if_neg (by simp [hany])] at hp
    rcases List.mem_append.mp hp with hp | hp
    · have := (List.any_eq_false.mp hany) p hp
      exact absurd (by simpa using hpk) this
    · rw [List.mem_singleton] at hp
      exact hp

/-! ## The claims -/

/-- C1: for every run that completes, the written `KnownMasters` array
contains no two entries with the same `ModKey` value: master names are
unique in the in-memory set and the serialized list inherits this
uniqueness. -/
theorem known_masters_modkeys_unique (full medium small : List String)
    (sort_by : String) (file : ReadResult) (d : JValue)
    (h : (runMain full medium small sort_by file).2 = Except.ok d) :
    ∃ items : List JValue,
      jgetDoc d "KnownMasters" = some (JValue.arr items)
      ∧ (items.map (fun j => jgetDoc j "ModKey")).Nodup := by
  obtain ⟨fields, rfl⟩ : ∃ fields, d = JValue.obj (dictSet fields "KnownMasters"
      (JValue.arr ((writtenMasters full medium small sort_by).map Master.toJson))) := by
    cases file with
    | notFound => exact ⟨[], (Except.ok.inj h).symm⟩
    | otherError => exact absurd h (by simp [runMain, loadDoc])
    | ok j =>
      cases j with
      | obj fields => exact ⟨fields, (Except.ok.inj h).symm⟩
      | arr items => exact absurd h (by simp [runMain, loadDoc])
      | str s => exact absurd h (by simp [runMain, loadDoc])
      | num n => exact absurd h (by simp [runMain, loadDoc])
      | jbool b => exact absurd h (by simp [runMain, loadDoc])
      | null => exact absurd h (by simp [runMain, loadDoc])
  refine ⟨(writtenMasters full medium small sort_by).map Master.toJson,
    jget_dictSet_self fields _ _, ?_⟩
  rw [List.map_map]
  have hcomp : ((fun j => jgetDoc j "ModKey") ∘ Master.toJson)
      = (fun n => some (JValue.str n)) ∘ Master.name := by
    funext m
    rfl
  rw [hcomp, ← List.map_map]
  refine (names_nodup_writtenMasters full medium small sort_by).map ?_
  intro a b hab
  simpa using hab

/-- Witness for C1 at the concrete run with no CLI masters on a missing
file. -/
theorem known_masters_modkeys_unique_witness :
    ∃ items : List JValue,
      jgetDoc (JValue.obj (dictSet [] "KnownMasters"
          (JValue.arr ((writtenMasters [] [] [] "name").map Master.toJson))))
        "KnownMasters" = some (JValue.arr items)
      ∧ (items.map (fun j => jgetDoc j "ModKey")).Nodup :=
  known_masters_modkeys_unique [] [] [] "name" .notFound _ rfl

/-- C2: adding a master whose name is already in the set (built-in or
supplied earlier) leaves the set unchanged — the first-inserted entry and
type win, even when the new type differs — and appends exactly one warning
line naming that file; concretely, `--small-masters Starfield.esm` warns
and yields exactly the 10 built-ins with `Starfield.esm` still `Full`. -/
theorem duplicate_master_noop_and_warns (s : List Master) (w : List String)
    (master_file : String) (t : MasterType) (h : hasName s master_file = true) :
    addMaster (s, w) master_file t = (s, w ++ [dupWarning master_file])
    ∧ computeKnownMasters [] [] ["Starfield.esm"]
        = (builtinMasters, [dupWarning "Starfield.esm"])
    ∧ Master.mk "Starfield.esm" MasterType.FULL ∈ builtinMasters
    ∧ builtinMasters.length = 10 := by
  refine ⟨?_, by decide, by decide, rfl⟩
  unfold addMaster
  rw [if_pos h]

/-- Witness for C2: `Starfield.esm` is a built-in, so re-adding it as a
`Small` master is a warned no-op. -/
theorem duplicate_master_noop_and_warns_witness :
    hasName builtinMasters "Starfield.esm" = true
    ∧ (addMaster (builtinMasters, []) "Starfield.esm" MasterType.SMALL
          = (builtinMasters, [] ++ [dupWarning "Starfield.esm"])
        ∧ computeKnownMasters [] [] ["Starfield.esm"]
            = (builtinMasters, [dupWarning "Starfield.esm"])
        ∧ Master.mk "Starfield.esm" MasterType.FULL ∈ builtinMasters
        ∧ builtinMasters.length = 10) :=
  ⟨by decide,
    duplicate_master_noop_and_warns builtinMasters [] "Starfield.esm" .SMALL (by decide)⟩

/-- C3: with `--sort-by name` the written `KnownMasters` array is sorted
ascending by the lowercased `ModKey` string. -/
theorem written_sorted_by_name (full medium small : List String) :
    (writtenMasters full medium small "name").Sorted
      (fun a b => strLe (lowerStr a.name) (lowerStr b.name) = true) := by
  have hdef : writtenMasters full medium small "name"
      = List.insertionSort (fun a b => nameLe a b = true)
          (computeKnownMasters full medium small).1 := rfl
  rw [hdef]
  exact @List.sorted_insertionSort Master (fun a b => nameLe a b = true) _
    ⟨nameLe_total⟩ ⟨nameLe_trans⟩ (computeKnownMasters full medium small).1

/-- C4: with `--sort-by type` the written `KnownMasters` array is sorted
ascending by the pair (lowercased `Style`, lowercased `ModKey`): grouped by
size class, alphabetical within each group. -/
theorem written_sorted_by_type (full medium small : List String) :
    (writtenMasters full medium small "type").Sorted (fun a b =>
      (lowerStr a.type.toStyle = lowerStr b.type.toStyle
          ∧ strLe (lowerStr a.name) (lowerStr b.name) = true)
        ∨ (lowerStr a.type.toStyle ≠ lowerStr b.type.toStyle
          ∧ strLe (lowerStr a.type.toStyle) (lowerStr b.type.toStyle) = true)) := by
  have hdef : writtenMasters full medium small "type"
      = List.insertionSort (fun a b => typeLe a b = true)
          (computeKnownMasters full medium small).1 := rfl
  rw [hdef]
  have hs := @List.sorted_insertionSort Master (fun a b => typeLe a b = true) _
    ⟨typeLe_total⟩ ⟨typeLe_trans⟩ (computeKnownMasters full medium small).1
  exact List.Pairwise.imp (fun hab => (typeLe_iff _ _).mp hab) hs

/-- C5: the written `KnownMasters` value is a function of the built-ins and
the CLI lists alone — a pre-existing value is fully replaced, never merged —
and a run with no flags on a missing/empty file writes exactly the 10
built-in entries sorted by name. -/
theorem known_masters_fully_replaced (full medium small : List String)
    (sort_by : String) (fields : List (String × JValue)) :
    (runMain full medium small sort_by (.ok (.obj fields))).2
      = Except.ok (JValue.obj (dictSet fields "KnownMasters"
          (JValue.arr ((writtenMasters full medium small sort_by).map Master.toJson))))
    ∧ jget (dictSet fields "KnownMasters"
          (JValue.arr ((writtenMasters full medium small sort_by).map Master.toJson)))
        "KnownMasters"
      = some (JValue.arr ((writtenMasters full medium small sort_by).map Master.toJson))
    ∧ runMain [] [] [] "name" .notFound
      = ([], Except.ok (JValue.obj [("KnownMasters", JValue.arr
          [ .obj [("ModKey", .str "BlueprintShips-Starfield.esm"), ("Style", .str "Full")]
          , .obj [("ModKey", .str "Constellation.esm"), ("Style", .str "Small")]
          , .obj [("ModKey", .str "OldMars.esm"), ("Style", .str "Small")]
          , .obj [("ModKey", .str "SFBGS003.esm"), ("Style", .str "Medium")]
          , .obj [("ModKey", .str "SFBGS004.esm"), ("Style", .str "Small")]
          , .obj [("ModKey", .str "SFBGS006.esm"), ("Style", .str "Medium")]
          , .obj [("ModKey", .str "SFBGS007.esm"), ("Style", .str "Small")]
          , .obj [("ModKey", .str "SFBGS008.esm"), ("Style", .str "Small")]
          , .obj [("ModKey", .str "ShatteredSpace.esm"), ("Style", .str "Full")]
          , .obj [("ModKey", .str "Starfield.esm"), ("Style", .str "Full")]
          ])])) :=
  ⟨rfl, jget_dictSet_self fields _ _, rfl⟩

/-- C6: every pre-existing top-level key other than `KnownMasters` is
present in the written document with its original value unchanged. -/
theorem other_keys_preserved (full medium small : List String) (sort_by : String)
    (fields fields' : List (String × JValue)) (k : String)
    (h : (runMain full medium small sort_by (.ok (.obj fields))).2
        = Except.ok (JValue.obj fields'))
    (hk : k ≠ "KnownMasters") :
    jget fields' k = jget fields k := by
  have hfields : fields' = dictSet fields "KnownMasters"
      (JValue.arr ((writtenMasters full medium small sort_by).map Master.toJson)) :=
    (JValue.obj.inj (Except.ok.inj h)).symm
  rw [hfields]
  exact jget_dictSet_ne fields _ k _ hk

/-- Witness for C6: an `OtherKey` field survives a run over it. -/
theorem other_keys_preserved_witness :
    jget (dictSet [("OtherKey", JValue.num 1)] "KnownMasters"
        (JValue.arr ((writtenMasters [] [] [] "name").map Master.toJson))) "OtherKey"
      = jget [("OtherKey", JValue.num 1)] "OtherKey" :=
  other_keys_preserved [] [] [] "name" [("OtherKey", JValue.num 1)] _ "OtherKey" rfl
    (by decide)

/-- C7: a missing configuration file is not an error — the run proceeds
exactly as on an empty document and completes — while any other read or
parse failure propagates and aborts with no controlled result. -/
theorem missing_file_recovered_other_failures_fatal
    (full medium small : List String) (sort_by : String) :
    runMain full medium small sort_by .notFound
      = runMain full medium small sort_by (.ok (.obj []))
    ∧ (runMain full medium small sort_by .notFound).2
      = Except.ok (JValue.obj (dictSet [] "KnownMasters"
          (JValue.arr ((writtenMasters full medium small sort_by).map Master.toJson))))
    ∧ (runMain full medium small sort_by .otherError).2
      = Except.error RunError.readError :=
  ⟨rfl, rfl, rfl⟩

/-- Counterexample to C8 as stated: with `--full-masters FOO.esm foo.esm`,
both case-variants survive the case-sensitive dedup and tie on the
lowercased sort key, and the stable sort of line 88 keeps tied entries in
the set iteration order of line 85. Both orders below are legitimate
iteration orders of the very same run, yet they serialize different
`KnownMasters` arrays, so two successive runs with identical CLI arguments
need not produce byte-for-byte identical content. -/
theorem rerun_idempotence_counterexample :
    iterOrderOf ["FOO.esm", "foo.esm"] [] []
      (builtinMasters
        ++ [Master.mk "FOO.esm" MasterType.FULL, Master.mk "foo.esm" MasterType.FULL])
    ∧ iterOrderOf ["FOO.esm", "foo.esm"] [] []
      (builtinMasters
        ++ [Master.mk "foo.esm" MasterType.FULL, Master.mk "FOO.esm" MasterType.FULL])
    ∧ List.map Master.name (sortMasters "name" (builtinMasters
          ++ [Master.mk "FOO.esm" MasterType.FULL, Master.mk "foo.esm" MasterType.FULL]))
      ≠ List.map Master.name (sortMasters "name" (builtinMasters
          ++ [Master.mk "foo.esm" MasterType.FULL, Master.mk "FOO.esm" MasterType.FULL])) := by
  have hset : (computeKnownMasters ["FOO.esm", "foo.esm"] [] []).1
      = builtinMasters
        ++ [Master.mk "FOO.esm" MasterType.FULL, Master.mk "foo.esm" MasterType.FULL] := by
    decide
  refine ⟨?_, ?_, by decide⟩
  · show List.Perm _ _
    rw [hset]
  · show List.Perm _ _
    rw [hset]
    exact List.Perm.append_left builtinMasters
      (List.Perm.swap (Master.mk "FOO.esm" MasterType.FULL)
        (Master.mk "foo.esm" MasterType.FULL) [])

/-- C8 (amended): running twice with identical CLI arguments yields, on the
second run, a `KnownMasters` list with exactly the same entries as the
first run's — a permutation, whichever set iteration orders the two
processes use (duplicates against the first run's output are warned and
dropped, not re-added) — and the insertion-order listing proved about
elsewhere is itself one of the possible iteration orders. Byte-for-byte
identity is only guaranteed up to the order of entries with tied sort
keys. -/
theorem rerun_same_entries_up_to_ties (full medium small : List String)
    (sort_by : String) (iter₁ iter₂ : List Master)
    (h₁ : iterOrderOf full medium small iter₁)
    (h₂ : iterOrderOf full medium small iter₂) :
    ((sortMasters sort_by iter₂).map Master.toJson).Perm
      ((sortMasters sort_by iter₁).map Master.toJson)
    ∧ iterOrderOf full medium small (computeKnownMasters full medium small).1
    ∧ sortMasters sort_by (computeKnownMasters full medium small).1
      = writtenMasters full medium small sort_by := by
  refine ⟨List.Perm.map Master.toJson ?_, List.Perm.refl _, rfl⟩
  exact ((sortMasters_perm sort_by iter₂).trans (h₂.trans h₁.symm)).trans
    (sortMasters_perm sort_by iter₁).symm

/-- Witness for C8 (amended), at the run of the counterexample: the
insertion order and the tie-swapped order are both iteration orders of the
same run, and their sorted serialized arrays are permutations of each
other. -/
theorem rerun_same_entries_up_to_ties_witness :
    (List.map Master.toJson (sortMasters "name" (builtinMasters
          ++ [Master.mk "foo.esm" MasterType.FULL, Master.mk "FOO.esm" MasterType.FULL]))).Perm
      (List.map Master.toJson
        (sortMasters "name" (computeKnownMasters ["FOO.esm", "foo.esm"] [] []).1))
    ∧ iterOrderOf ["FOO.esm", "foo.esm"] [] []
        (computeKnownMasters ["FOO.esm", "foo.esm"] [] []).1
    ∧ sortMasters "name" (computeKnownMasters ["FOO.esm", "foo.esm"] [] []).1
      = writtenMasters ["FOO.esm", "foo.esm"] [] [] "name" :=
  rerun_same_entries_up_to_ties ["FOO.esm", "foo.esm"] [] [] "name"
    (computeKnownMasters ["FOO.esm", "foo.esm"] [] []).1
    (builtinMasters
      ++ [Master.mk "foo.esm" MasterType.FULL, Master.mk "FOO.esm" MasterType.FULL])
    (List.Perm.refl _)
    (show List.Perm _ _ from by
      have hset : (computeKnownMasters ["FOO.esm", "foo.esm"] [] []).1
          = builtinMasters
            ++ [Master.mk "FOO.esm" MasterType.FULL,
                Master.mk "foo.esm" MasterType.FULL] := by
        decide
      rw [hset]
      exact List.Perm.append_left builtinMasters
        (List.Perm.swap (Master.mk "FOO.esm" MasterType.FULL)
          (Master.mk "foo.esm" MasterType.FULL) []))

/-- C9: deduplication compares names case-sensitively even though sorting is
case-insensitive: a supplied name differing from an existing one only in
letter case is added without any warning, and both entries appear in the
written array — concretely for `starfield.esm` against the built-in
`Starfield.esm`. -/
theorem dedup_case_sensitive (s : List Master) (w : List String)
    (master_file : String) (t : MasterType) (h : hasName s master_file = false) :
    addMaster (s, w) master_file t = (s ++ [⟨master_file, t⟩], w)
    ∧ computeKnownMasters ["starfield.esm"] [] []
        = (builtinMasters ++ [⟨"starfield.esm", MasterType.FULL⟩], [])
    ∧ Master.mk "Starfield.esm" MasterType.FULL
        ∈ writtenMasters ["starfield.esm"] [] [] "name"
    ∧ Master.mk "starfield.esm" MasterType.FULL
        ∈ writtenMasters ["starfield.esm"] [] [] "name" := by
  refine ⟨?_, by decide, by decide, by decide⟩
  unfold addMaster
  rw [if_neg (by simp [h])]

/-- Witness for C9: `starfield.esm` is not string-equal to any built-in
name, so it is added as an eleventh entry with no warning. -/
theorem dedup_case_sensitive_witness :
    hasName builtinMasters "starfield.esm" = false
    ∧ (addMaster (builtinMasters, []) "starfield.esm" MasterType.FULL
          = (builtinMasters ++ [⟨"starfield.esm", MasterType.FULL⟩], [])
        ∧ computeKnownMasters ["starfield.esm"] [] []
            = (builtinMasters ++ [⟨"starfield.esm", MasterType.FULL⟩], [])
        ∧ Master.mk "Starfield.esm" MasterType.FULL
            ∈ writtenMasters ["starfield.esm"] [] [] "name"
        ∧ Master.mk "starfield.esm" MasterType.FULL
            ∈ writtenMasters ["starfield.esm"] [] [] "name") :=
  ⟨by decide, dedup_case_sensitive builtinMasters [] "starfield.esm" .FULL (by decide)⟩

/-- C10: a file holding valid JSON whose top-level value is not an object
aborts the run at the `KnownMasters` assignment, before the write step, and
the on-disk contents are left unchanged. -/
theorem non_object_doc_aborts (full medium small : List String) (sort_by : String)
    (j : JValue) (h : ∀ fields, j ≠ JValue.obj fields) :
    (runMain full medium small sort_by (.ok j)).2 = Except.error RunError.notAnObject
    ∧ diskAfter full medium small sort_by (.ok j) = .ok j
    ∧ writtenDoc? full medium small sort_by (.ok j) = none := by
  cases j with
  | obj fields => exact absurd rfl (h fields)
  | arr items => exact ⟨rfl, rfl, rfl⟩
  | str s => exact ⟨rfl, rfl, rfl⟩
  | num n => exact ⟨rfl, rfl, rfl⟩
  | jbool b => exact ⟨rfl, rfl, rfl⟩
  | null => exact ⟨rfl, rfl, rfl⟩

/-- Witness for C10 at a top-level JSON array. -/
theorem non_object_doc_aborts_witness :
    (runMain [] [] [] "name" (.ok (JValue.arr []))).2
        = Except.error RunError.notAnObject
    ∧ diskAfter [] [] [] "name" (.ok (JValue.arr [])) = .ok (JValue.arr [])
    ∧ writtenDoc? [] [] [] "name" (.ok (JValue.arr [])) = none :=
  non_object_doc_aborts [] [] [] "name" (JValue.arr [])
    (fun _ hobj => JValue.noConfusion hobj)

end PopulateKnownMasters
